import Mathlib

/-!
Verification development for the AdVault DNS sinkhole server.

Strings are modelled as `List Char`; Python string sets as `List (List Char)`
or `Finset (List Char)`.  Each definition mirrors one function (or one
statement) of the server source; the theorems at the end of the file settle
the specification claims.
-/

namespace Advault

/-- ASCII whitespace, as recognised by the untyped `strip()` and `split()`
string operations used by the source (space, tab, newline, carriage return,
vertical tab, form feed). -/
def isSpace (c : Char) : Bool :=
  c == ' ' || c == '\t' || c == '\n' || c == '\r' || c == '\x0b' || c == '\x0c'

/-- Characters admitted by the character class `[a-z0-9.-]` of the cleanup
regular expression (the input is lowercased before this filter runs). -/
def isDomainChar (c : Char) : Bool :=
  (decide (97 ≤ c.toNat) && decide (c.toNat ≤ 122)) ||
  (decide (48 ≤ c.toNat) && decide (c.toNat ≤ 57)) ||
  c == '.' || c == '-'

/-- Strips every character satisfying `p` from both ends of a list; models the
two-sided Python `strip` family. -/
def pyStripBy (p : Char → Bool) (l : List Char) : List Char :=
  ((l.dropWhile p).reverse.dropWhile p).reverse

/-- Models `str.strip()` with no argument: trim whitespace at both ends. -/
def pyStrip (l : List Char) : List Char :=
  pyStripBy isSpace l

/-- Models `str.lower()` on the ASCII text this server handles. -/
def pyLower (l : List Char) : List Char :=
  l.map Char.toLower

/-- Models `str.split()` with no argument: split on runs of whitespace,
discarding empty pieces. -/
def pySplitWs : List Char → List (List Char)
  | [] => []
  | c :: rest =>
    if isSpace c then pySplitWs rest
    else
      match rest with
      | [] => [[c]]
      | r0 :: _ =>
        if isSpace r0 then [c] :: pySplitWs rest
        else
          match pySplitWs rest with
          | [] => [[c]]
          | w :: ws => (c :: w) :: ws

/-- Models `str.split('.')`: split at every dot, keeping empty pieces, so the
empty string splits into one empty piece. -/
def splitOnDot : List Char → List (List Char)
  | [] => [[]]
  | c :: rest =>
    let r := splitOnDot rest
    if c == '.' then [] :: r
    else
      match r with
      | [] => [[c]]
      | h :: t => (c :: h) :: t

/-- Models `".".join(...)`: interleave the pieces with dots. -/
def joinDots : List (List Char) → List Char
  | [] => []
  | [p] => p
  | p :: ps => p ++ '.' :: joinDots ps

/-- ASCII decimal digit test for the dotted-quad pattern. -/
def isDigitCh (c : Char) : Bool :=
  decide (48 ≤ c.toNat) && decide (c.toNat ≤ 57)

/-- Models the anchored regular-expression test for a dotted-quad IPv4
literal: four dot-separated groups of one to three digits. -/
def isIPv4Token (l : List Char) : Bool :=
  let ps := splitOnDot l
  ps.length == 4 &&
    ps.all (fun p => decide (1 ≤ p.length) && decide (p.length ≤ 3) && p.all isDigitCh)

/-- The characters of `"http://"`. -/
def httpPref : List Char := ['h', 't', 't', 'p', ':', '/', '/']

/-- The characters of `"https://"`. -/
def httpsPref : List Char := ['h', 't', 't', 'p', 's', ':', '/', '/']

/-- The characters of `"www."`. -/
def wwwPref : List Char := ['w', 'w', 'w', '.']

/-- Models the single anchored substitution that deletes an optional URI
scheme (`http://` or `https://`) followed by an optional `www.` prefix. -/
def stripSchemeWww (l : List Char) : List Char :=
  let l1 :=
    if httpsPref.isPrefixOf l then l.drop 8
    else if httpPref.isPrefixOf l then l.drop 7
    else l
  if wwwPref.isPrefixOf l1 then l1.drop 4 else l1

/-- Shallow embedding of `cleanup_domain`: trim and lowercase; reject empty
lines and `#` comments; in hosts-file form (`IP domain`) keep the second
token; drop scheme and `www.`; truncate at the first `/`; keep only
characters in `[a-z0-9.-]`; finally trim leading and trailing `-` and `.`. -/
def cleanup_domain (s : List Char) : List Char :=
  let d := pyLower (pyStrip s)
  if d == [] || d.head? == some '#' then []
  else
    let parts := pySplitWs d
    let d1 :=
      match parts with
      | p0 :: p1 :: _ => if isIPv4Token p0 then p1 else d
      | _ => d
    let d2 := stripSchemeWww d1
    let d3 := d2.takeWhile (fun c => c != '/')
    let d4 := d3.filter isDomainChar
    pyStripBy (fun c => c == '-' || c == '.') d4

/-- Shallow embedding of `is_domain_blocked`: clean the query name, consult
the allowlist first (exact membership), then exact blocklist membership, then
every dot suffix of the cleaned name (`".".join(parts[i:])` for each
`i < len(parts)`), returning `true` on any blocklist hit. -/
def is_domain_blocked (blocked allowed : List (List Char)) (qname : List Char) : Bool :=
  let q := cleanup_domain qname
  if q ∈ allowed then false
  else if q ∈ blocked then true
  else
    let parts := splitOnDot q
    (List.range parts.length).any fun i => decide (joinDots (parts.drop i) ∈ blocked)

/-- Result of one remote fetch: either a request failure (network error,
timeout, or the exception raised on a non-success HTTP status) or the
successfully fetched body, given as its list of lines. -/
inductive FetchResult where
  | failure
  | success (lines : List (List Char))
deriving DecidableEq

/-- Models the inner line loop of the aggregator and of
`load_domains_from_file`: clean each line and add it to the set when the
cleanup result is non-empty. -/
def addLines (temp : Finset (List Char)) (lines : List (List Char)) : Finset (List Char) :=
  lines.foldl
    (fun s line =>
      let d := cleanup_domain line
      if d ≠ [] then insert d s else s)
    temp

/-- Models one iteration of the source loop of the aggregator: a failed fetch
is caught, logged and skipped; a successful fetch contributes all its lines. -/
def fetchStep (temp : Finset (List Char)) (r : FetchResult) : Finset (List Char) :=
  match r with
  | FetchResult.failure => temp
  | FetchResult.success lines => addLines temp lines

/-- Models `temp_blocklist`, the working set the aggregator builds from the
given fetch outcomes before swapping it in. -/
def temp_blocklist (results : List FetchResult) : Finset (List Char) :=
  results.foldl fetchStep ∅

/-- Shallow embedding of `fetch_and_load_remote_blocklists`: build the working
set from the fetch outcomes, then, under the lock, clear the previous
blocked set (modelled by the always-false filter) and add every element of
the working set. -/
def fetch_and_load_remote_blocklists
    (prev : Finset (List Char)) (results : List FetchResult) : Finset (List Char) :=
  let temp := temp_blocklist results
  (prev.filter fun _ => False) ∪ temp

/-- Shallow embedding of `load_domains_from_file` applied to the lines of an
existing allowlist file. -/
def load_domains_from_file (lines : List (List Char)) : Finset (List Char) :=
  addLines ∅ lines

/-- A DNS question: query name and query type code. -/
structure DNSQuestion where
  qname : List Char
  qtype : Nat
deriving DecidableEq

/-- A resource record of a synthesized reply: name, type code and rdata. -/
structure RRm where
  rname : List Char
  rtype : Nat
  rdata : List Char
deriving DecidableEq

/-- A decoded inbound DNS request: transaction id and question section. -/
structure DNSRequest where
  reqId : Nat
  q : DNSQuestion
deriving DecidableEq

/-- A synthesized DNS reply: transaction id, response code, echoed question
section, and answer records. -/
structure DNSReply where
  replyId : Nat
  rcode : Nat
  q : DNSQuestion
  answers : List RRm
deriving DecidableEq

/-- Models `request.reply()`: a reply reusing the request's transaction id and
question section, with response code NOERROR and no answers yet. -/
def mkReply (req : DNSRequest) : DNSReply :=
  ⟨req.reqId, 0, req.q, []⟩

/-- Models the `reply.header.rcode = n` assignment. -/
def setRcode (r : DNSReply) (n : Nat) : DNSReply :=
  ⟨r.replyId, n, r.q, r.answers⟩

/-- Models `reply.add_answer(rr)`. -/
def addAnswer (r : DNSReply) (rr : RRm) : DNSReply :=
  ⟨r.replyId, r.rcode, r.q, r.answers ++ [rr]⟩

/-- The numeric code of `QTYPE.A`. -/
def qtypeA : Nat := 1

/-- The characters of the sinkhole address `"0.0.0.0"`. -/
def zeroAddr : List Char := ['0', '.', '0', '.', '0', '.', '0']

/-- Behaviour of the upstream resolver for one forwarded query: a reply of raw
bytes, a socket timeout, or any other I/O error. -/
inductive UpstreamBehavior where
  | replies (bytes : List Nat)
  | timeout
  | ioError
deriving DecidableEq

/-- What the relay sends back to the origin for one datagram: nothing, a
synthesized reply, or the upstream's raw bytes relayed verbatim. -/
inductive Outcome where
  | noReply
  | sendReply (r : DNSReply)
  | sendRaw (bytes : List Nat)
deriving DecidableEq

/-- Result of handling one inbound datagram: what was sent to the origin, and
the state of the per-query outbound socket (`none` when it was never opened,
`some b` when it was opened with `b` recording that it was closed). -/
structure StepResult where
  outcome : Outcome
  upstreamSocket : Option Bool
deriving DecidableEq

/-- Models `str(request.q.qname).strip('.')`. -/
def stripDots (l : List Char) : List Char :=
  pyStripBy (fun c => c == '.') l

/-- Shallow embedding of one iteration of the `dns_server` loop body.  An
undecodable datagram (`parsed = none`) raises inside the `try` block before
any send, so the catch-all handler swallows it and nothing is sent.  A
blocked name gets the sinkhole reply: `request.reply()` plus one A record
with rdata `0.0.0.0`.  Otherwise the request bytes are forwarded on a fresh
outbound socket whose `finally` block always closes it; a timeout or any
other upstream error is answered with the request's reply carrying
rcode 2 (SERVFAIL). -/
def serverStep (blocked allowed : List (List Char)) (parsed : Option DNSRequest)
    (up : UpstreamBehavior) : StepResult :=
  match parsed with
  | none => ⟨Outcome.noReply, none⟩
  | some req =>
    let qname := stripDots req.q.qname
    if is_domain_blocked blocked allowed qname then
      ⟨Outcome.sendReply (addAnswer (mkReply req) ⟨qname, qtypeA, zeroAddr⟩), none⟩
    else
      match up with
      | UpstreamBehavior.replies bytes => ⟨Outcome.sendRaw bytes, some true⟩
      | UpstreamBehavior.timeout => ⟨Outcome.sendReply (setRcode (mkReply req) 2), some true⟩
      | UpstreamBehavior.ioError => ⟨Outcome.sendReply (setRcode (mkReply req) 2), some true⟩

/-- The `while True` loop of `dns_server`, run over a finite trace of inbound
events (decode outcome of the datagram, and the upstream's behaviour for it). -/
def serverLoop (blocked allowed : List (List Char))
    (events : List (Option DNSRequest × UpstreamBehavior)) : List StepResult :=
  events.map fun e => serverStep blocked allowed e.1 e.2

/-! Helper lemmas about the string primitives. -/

theorem dropWhile_head_false (p : Char → Bool) :
    ∀ (l : List Char) (c : Char) (t : List Char), l.dropWhile p = c :: t → p c = false := by
  intro l
  induction l with
  | nil => intro c t h; simp [List.dropWhile] at h
  | cons a l' ih =>
    intro c t h
    by_cases hpa : p a
    · rw [List.dropWhile_cons_of_pos hpa] at h
      exact ih c t h
    · rw [List.dropWhile_cons_of_neg hpa] at h
      cases h
      exact Bool.eq_false_iff.mpr hpa

theorem dropWhile_eq_self_of_head (p : Char → Bool) (l : List Char)
    (h : ∀ c, l.head? = some c → p c = false) : l.dropWhile p = l := by
  cases l with
  | nil => rfl
  | cons a l' =>
    have ha : p a = false := h a rfl
    rw [List.dropWhile_cons_of_neg (by simp [ha])]

theorem dropWhile_getLast_eq (p : Char → Bool) (l : List Char)
    (h : l.dropWhile p ≠ []) : (l.dropWhile p).getLast? = l.getLast? := by
  conv_rhs => rw [show l = l.takeWhile p ++ l.dropWhile p from (List.takeWhile_append_dropWhile p l).symm]
  rw [List.getLast?_append]
  cases hd : (l.dropWhile p).getLast? with
  | none => exact absurd (List.getLast?_eq_none_iff.mp hd) h
  | some c => rfl

theorem stripBy_subset (p : Char → Bool) (l : List Char) :
    ∀ x ∈ pyStripBy p l, x ∈ l := by
  intro x hx
  unfold pyStripBy at hx
  rw [List.mem_reverse] at hx
  have h1 := (List.dropWhile_sublist (l := (l.dropWhile p).reverse) (p := p)).subset hx
  rw [List.mem_reverse] at h1
  exact (List.dropWhile_sublist (l := l) (p := p)).subset h1

theorem stripBy_head_false (p : Char → Bool) (l : List Char) (c : Char) (t : List Char)
    (h : pyStripBy p l = c :: t) : p c = false := by
  unfold pyStripBy at h
  set m := ((l.dropWhile p).reverse.dropWhile p) with hm
  have hmne : m ≠ [] := by
    intro hnil
    rw [hnil] at h
    exact List.noConfusion h
  have hlast : m.getLast? = some c := by
    have : m.reverse.head? = some c := by rw [h]; rfl
    rwa [List.head?_reverse] at this
  rw [hm, dropWhile_getLast_eq p _ (hm ▸ hmne), List.getLast?_reverse] at hlast
  obtain ⟨t', ht'⟩ : ∃ t', l.dropWhile p = c :: t' := by
    cases hd : l.dropWhile p with
    | nil => rw [hd] at hlast; exact absurd hlast (by simp)
    | cons a u =>
      rw [hd] at hlast
      simp only [List.head?_cons, Option.some.injEq] at hlast
      exact ⟨u, by rw [hlast]⟩
  exact dropWhile_head_false p l c t' ht'

theorem stripBy_last_false (p : Char → Bool) (l : List Char) (c : Char)
    (h : (pyStripBy p l).getLast? = some c) : p c = false := by
  unfold pyStripBy at h
  rw [List.getLast?_reverse] at h
  cases hd : (l.dropWhile p).reverse.dropWhile p with
  | nil => rw [hd] at h; exact absurd h (by simp)
  | cons a u =>
    rw [hd] at h
    simp only [List.head?_cons, Option.some.injEq] at h
    exact h ▸ dropWhile_head_false p _ a u hd

theorem stripBy_eq_self (p : Char → Bool) (l : List Char)
    (hh : ∀ c, l.head? = some c → p c = false)
    (hl : ∀ c, l.getLast? = some c → p c = false) : pyStripBy p l = l := by
  unfold pyStripBy
  rw [dropWhile_eq_self_of_head p l hh]
  rw [dropWhile_eq_self_of_head p l.reverse (by
    intro c hc
    rw [List.head?_reverse] at hc
    exact hl c hc)]
  exact List.reverse_reverse l

theorem stripBy_eq_self_of_all (p : Char → Bool) (l : List Char)
    (h : ∀ c ∈ l, p c = false) : pyStripBy p l = l :=
  stripBy_eq_self p l
    (fun c hc => h c (List.mem_of_mem_head? (by rw [hc]; rfl)))
    (fun c hc => h c (List.mem_of_getLast?_eq_some hc))

/-! Helper lemmas about dot splitting and joining. -/

theorem splitOnDot_ne_nil : ∀ l : List Char, splitOnDot l ≠ [] := by
  intro l
  cases l with
  | nil => simp [splitOnDot]
  | cons c rest =>
    simp only [splitOnDot]
    by_cases hc : c == '.'
    · simp [hc]
    · simp only [hc, if_false, Bool.false_eq_true]
      cases splitOnDot rest with
      | nil => simp
      | cons h t => simp

theorem splitOnDot_cons_dot (rest : List Char) :
    splitOnDot ('.' :: rest) = [] :: splitOnDot rest := by
  simp [splitOnDot]

theorem splitOnDot_cons_ne (c : Char) (rest : List Char) (hc : c ≠ '.')
    (h : List Char) (t : List (List Char)) (hr : splitOnDot rest = h :: t) :
    splitOnDot (c :: rest) = (c :: h) :: t := by
  simp only [splitOnDot, hr, beq_eq_false_iff_ne.mpr hc, Bool.false_eq_true, if_false]

theorem joinDots_cons_cons (p q : List Char) (ps : List (List Char)) :
    joinDots (p :: q :: ps) = p ++ '.' :: joinDots (q :: ps) := rfl

theorem joinDots_splitOnDot : ∀ l : List Char, joinDots (splitOnDot l) = l := by
  intro l
  induction l with
  | nil => rfl
  | cons c rest ih =>
    by_cases hc : c = '.'
    · subst hc
      rw [splitOnDot_cons_dot]
      obtain ⟨h, t, ht⟩ : ∃ h t, splitOnDot rest = h :: t := by
        cases hs : splitOnDot rest with
        | nil => exact absurd hs (splitOnDot_ne_nil rest)
        | cons h t => exact ⟨h, t, rfl⟩
      rw [ht]
      rw [ht] at ih
      rw [joinDots_cons_cons]
      simp only [List.nil_append]
      rw [ih]
    · obtain ⟨h, t, ht⟩ : ∃ h t, splitOnDot rest = h :: t := by
        cases hs : splitOnDot rest with
        | nil => exact absurd hs (splitOnDot_ne_nil rest)
        | cons h t => exact ⟨h, t, rfl⟩
      rw [splitOnDot_cons_ne c rest hc h t ht]
      rw [ht] at ih
      cases t with
      | nil =>
        simp only [joinDots] at ih ⊢
        rw [ih]
      | cons t0 ts =>
        rw [joinDots_cons_cons] at ih ⊢
        simp only [List.cons_append, ih]

/-- Any decomposition of `q` as `u ++ '.' :: d` makes `d` one of the proper
dot suffixes that the subdomain loop of `is_domain_blocked` enumerates. -/
theorem suffix_mem_splits :
    ∀ (u q d : List Char), q = u ++ '.' :: d →
      ∃ i, 0 < i ∧ i < (splitOnDot q).length ∧ joinDots ((splitOnDot q).drop i) = d := by
  intro u
  induction u with
  | nil =>
    intro q d hq
    subst hq
    simp only [List.nil_append]
    rw [splitOnDot_cons_dot]
    refine ⟨1, Nat.one_pos, ?_, ?_⟩
    · simp only [List.length_cons]
      have := splitOnDot_ne_nil d
      have : 0 < (splitOnDot d).length := List.length_pos.mpr this
      omega
    · simp only [List.drop_one, List.tail_cons]
      exact joinDots_splitOnDot d
  | cons a u' ih =>
    intro q d hq
    subst hq
    obtain ⟨i, hi0, hilen, hjoin⟩ := ih (u' ++ '.' :: d) d rfl
    by_cases ha : a = '.'
    · subst ha
      rw [List.cons_append, splitOnDot_cons_dot]
      refine ⟨i + 1, Nat.succ_pos i, ?_, ?_⟩
      · simp only [List.length_cons]; omega
      · simp only [List.drop_succ_cons]; exact hjoin
    · obtain ⟨h, t, ht⟩ : ∃ h t, splitOnDot (u' ++ '.' :: d) = h :: t := by
        cases hs : splitOnDot (u' ++ '.' :: d) with
        | nil => exact absurd hs (splitOnDot_ne_nil _)
        | cons h t => exact ⟨h, t, rfl⟩
      rw [List.cons_append, splitOnDot_cons_ne a _ ha h t ht]
      rw [ht] at hilen hjoin
      refine ⟨i, hi0, by simpa using hilen, ?_⟩
      obtain ⟨j, hj⟩ : ∃ j, i = j + 1 := ⟨i - 1, by omega⟩
      subst hj
      simp only [List.drop_succ_cons] at hjoin ⊢
      exact hjoin

/-! Helper lemmas about characters and whitespace splitting. -/

theorem domainChar_toLower_fix (c : Char) (h : isDomainChar c = true) : c.toLower = c := by
  simp only [isDomainChar, Bool.or_eq_true, Bool.and_eq_true, decide_eq_true_eq,
    beq_iff_eq] at h
  have hno : ¬(c.toNat ≥ 65 ∧ c.toNat ≤ 90) := by
    rcases h with ((⟨h1, h2⟩ | ⟨h1, h2⟩) | h1) | h1
    · omega
    · omega
    · subst h1; decide
    · subst h1; decide
  unfold Char.toLower
  rw [if_neg hno]

theorem domainChar_not_space (c : Char) (h : isDomainChar c = true) : isSpace c = false := by
  cases hsp : isSpace c with
  | false => rfl
  | true =>
    exfalso
    simp only [isSpace, Bool.or_eq_true, beq_iff_eq] at hsp
    rcases hsp with ((((h1 | h1) | h1) | h1) | h1) | h1 <;> subst h1 <;>
      exact absurd h (by decide)

theorem domainChar_ne (c : Char) (h : isDomainChar c = true) (b : Char)
    (hb : isDomainChar b = false) : c ≠ b := by
  intro he
  subst he
  rw [h] at hb
  exact Bool.noConfusion hb

theorem isPrefixOf_mem :
    ∀ (p l : List Char), p.isPrefixOf l = true → ∀ c ∈ p, c ∈ l := by
  intro p
  induction p with
  | nil => intro l _ c hc; exact absurd hc (List.not_mem_nil c)
  | cons a p' ih =>
    intro l h c hc
    cases l with
    | nil => simp [List.isPrefixOf] at h
    | cons b l' =>
      simp only [List.isPrefixOf, Bool.and_eq_true, beq_iff_eq] at h
      rcases List.mem_cons.mp hc with hca | hcp

      · exact hca ▸ h.1 ▸ List.mem_cons_self b l'
      · exact List.mem_cons_of_mem b (ih l' h.2 c hcp)

theorem splitWs_no_space (l : List Char) (hne : l ≠ [])
    (h : ∀ c ∈ l, isSpace c = false) : pySplitWs l = [l] := by
  induction l with
  | nil => exact absurd rfl hne
  | cons c rest ih =>
    have hc : isSpace c = false := h c (List.mem_cons_self c rest)
    cases rest with
    | nil => simp [pySplitWs, hc]
    | cons r0 rs =>
      have hr0 : isSpace r0 = false := h r0 (by simp)
      have hrec : pySplitWs (r0 :: rs) = [r0 :: rs] :=
        ih (by simp) (fun x hx => h x (List.mem_cons_of_mem c hx))
      have hdef : pySplitWs (c :: r0 :: rs) =
          if isSpace c then pySplitWs (r0 :: rs)
          else if isSpace r0 then [c] :: pySplitWs (r0 :: rs)
          else
            match pySplitWs (r0 :: rs) with
            | [] => [[c]]
            | w :: ws => (c :: w) :: ws := rfl
      rw [hdef, if_neg (by simp [hc]), if_neg (by simp [hr0]), hrec]

theorem takeWhile_eq_self_of_all (p : Char → Bool) :
    ∀ l : List Char, (∀ c ∈ l, p c = true) → l.takeWhile p = l := by
  intro l
  induction l with
  | nil => intro _; rfl
  | cons a l' ih =>
    intro h
    rw [List.takeWhile_cons_of_pos (h a (List.mem_cons_self a l'))]
    rw [ih (fun c hc => h c (List.mem_cons_of_mem a hc))]

theorem dropWhile_eq_nil_of_all (p : Char → Bool) :
    ∀ l : List Char, (∀ c ∈ l, p c = true) → l.dropWhile p = [] := by
  intro l
  induction l with
  | nil => intro _; rfl
  | cons a l' ih =>
    intro h
    rw [List.dropWhile_cons_of_pos (h a (List.mem_cons_self a l'))]
    exact ih (fun c hc => h c (List.mem_cons_of_mem a hc))

/-! The canonical Domain form stated by the specification. -/

/-- A list edge (head or last element) carries no dot and no hyphen. -/
def notEdge (o : Option Char) : Bool :=
  match o with
  | none => true
  | some c => !(c == '.') && !(c == '-')

/-- The specification's canonical Domain form: only characters of
`[a-z0-9.-]` (hence lowercase), and no leading or trailing `.` or `-`. -/
def isCanonicalDomain (l : List Char) : Bool :=
  l.all isDomainChar && notEdge l.head? && notEdge l.getLast?

theorem canonical_strip_filter (l : List Char) :
    isCanonicalDomain
      (pyStripBy (fun c => c == '-' || c == '.') (l.filter isDomainChar)) = true := by
  cases hr : pyStripBy (fun c => c == '-' || c == '.') (l.filter isDomainChar) with
  | nil => decide
  | cons a t =>
    have hall : ∀ x ∈ a :: t, isDomainChar x = true := by
      intro x hx
      have hx2 := stripBy_subset _ _ x (hr ▸ hx)
      exact (List.mem_filter.mp hx2).2
    have hpa : (a == '-' || a == '.') = false :=
      stripBy_head_false _ _ a t hr
    have hlast : ∀ c, (a :: t).getLast? = some c → (c == '-' || c == '.') = false := by
      intro c hc
      exact stripBy_last_false _ _ c (by rw [hr]; exact hc)
    simp only [Bool.or_eq_false_iff] at hpa
    obtain ⟨cl, hcl⟩ : ∃ cl, (a :: t).getLast? = some cl := by
      cases hg : (a :: t).getLast? with
      | none => exact absurd (List.getLast?_eq_none_iff.mp hg) (by simp)
      | some cl => exact ⟨cl, rfl⟩
    have hpl := hlast cl hcl
    simp only [Bool.or_eq_false_iff] at hpl
    simp only [isCanonicalDomain, Bool.and_eq_true, List.all_eq_true, List.head?_cons,
      hcl, notEdge, Bool.not_eq_true']
    exact ⟨⟨fun x hx => hall x hx, by simp [hpa.1, hpa.2]⟩, by simp [hpl.1, hpl.2]⟩

theorem cleanup_domain_shape (s : List Char) :
    cleanup_domain s = [] ∨
      ∃ l : List Char, cleanup_domain s =
        pyStripBy (fun c => c == '-' || c == '.') (l.filter isDomainChar) := by
  unfold cleanup_domain
  by_cases hg :
      (pyLower (pyStrip s) == [] || (pyLower (pyStrip s)).head? == some '#') = true
  · rw [if_pos hg]
    exact Or.inl rfl
  · rw [if_neg hg]
    exact Or.inr ⟨_, rfl⟩

/-- Every output of `cleanup_domain` is in the canonical Domain form. -/
theorem cleanup_canonical (s : List Char) : isCanonicalDomain (cleanup_domain s) = true := by
  rcases cleanup_domain_shape s with h | ⟨l, h⟩
  · rw [h]; decide
  · rw [h]; exact canonical_strip_filter l

/-- A non-empty canonical domain that does not begin with `www.` is a fixed
point of `cleanup_domain`. -/
theorem cleanup_fix (y : List Char)
    (hall : ∀ c ∈ y, isDomainChar c = true)
    (hhead : notEdge y.head? = true) (hlast : notEdge y.getLast? = true)
    (hne : y ≠ []) (hww : wwwPref.isPrefixOf y = false) :
    cleanup_domain y = y := by
  have hstrip : pyStrip y = y :=
    stripBy_eq_self_of_all isSpace y (fun c hc => domainChar_not_space c (hall c hc))
  have hlow : pyLower y = y := by
    unfold pyLower
    have : y.map Char.toLower = y.map id :=
      List.map_congr_left (fun c hc => domainChar_toLower_fix c (hall c hc))
    rw [this, List.map_id]
  obtain ⟨y0, yt, hy0⟩ : ∃ y0 yt, y = y0 :: yt := by
    cases y with
    | nil => exact absurd rfl hne
    | cons y0 yt => exact ⟨y0, yt, rfl⟩
  have hguard : (y == [] || y.head? == some '#') = false := by
    rw [hy0]
    have h0 : isDomainChar y0 = true := hall y0 (hy0 ▸ List.mem_cons_self y0 yt)
    have : y0 ≠ '#' := domainChar_ne y0 h0 '#' (by decide)
    simp [this]
  have hsplit : pySplitWs y = [y] :=
    splitWs_no_space y hne (fun c hc => domainChar_not_space c (hall c hc))
  have hnocolon : (':' : Char) ∉ y := fun hc => absurd (hall ':' hc) (by decide)
  have hhttps : httpsPref.isPrefixOf y = false := by
    cases hp : httpsPref.isPrefixOf y with
    | false => rfl
    | true => exact absurd (isPrefixOf_mem _ y hp ':' (by decide)) hnocolon
  have hhttp : httpPref.isPrefixOf y = false := by
    cases hp : httpPref.isPrefixOf y with
    | false => rfl
    | true => exact absurd (isPrefixOf_mem _ y hp ':' (by decide)) hnocolon
  have hscheme : stripSchemeWww y = y := by
    unfold stripSchemeWww
    rw [hhttps, hhttp]
    simp only [Bool.false_eq_true, if_false]
    rw [hww]
    simp
  have htake : y.takeWhile (fun c => c != '/') = y := by
    refine takeWhile_eq_self_of_all _ y (fun c hc => ?_)
    have : c ≠ '/' := domainChar_ne c (hall c hc) '/' (by decide)
    simp [this]
  have hfilter : y.filter isDomainChar = y := List.filter_eq_self.mpr hall
  have hstripdash : pyStripBy (fun c => c == '-' || c == '.') y = y := by
    refine stripBy_eq_self _ y ?_ ?_
    · intro c hc
      rw [hc] at hhead
      simp only [notEdge, Bool.and_eq_true, Bool.not_eq_true'] at hhead
      simp [hhead.1, hhead.2]
    · intro c hc
      rw [hc] at hlast
      simp only [notEdge, Bool.and_eq_true, Bool.not_eq_true'] at hlast
      simp [hlast.1, hlast.2]
  unfold cleanup_domain
  rw [hstrip, hlow]
  simp only [hguard, Bool.false_eq_true, if_false, hsplit, hscheme, htake, hfilter,
    hstripdash]

/-! Helper lemmas about the aggregator. -/

theorem mem_addLines (lines : List (List Char)) :
    ∀ (temp : Finset (List Char)) (d : List Char),
      d ∈ addLines temp lines ↔
        d ∈ temp ∨ (d ≠ [] ∧ ∃ line ∈ lines, cleanup_domain line = d) := by
  induction lines with
  | nil => intro temp d; simp [addLines]
  | cons x xs ih =>
    intro temp d
    have step : addLines temp (x :: xs) =
        addLines (if cleanup_domain x ≠ [] then insert (cleanup_domain x) temp else temp)
          xs := rfl
    rw [step, ih]
    by_cases hx : cleanup_domain x = []
    · rw [if_neg (by simp [hx])]
      simp only [List.exists_mem_cons_iff, hx]
      constructor
      · rintro (h | ⟨hne, hq⟩)
        · exact Or.inl h
        · exact Or.inr ⟨hne, Or.inr hq⟩
      · rintro (h | ⟨hne, heq | hq⟩)
        · exact Or.inl h
        · exact absurd heq.symm hne
        · exact Or.inr ⟨hne, hq⟩
    · rw [if_pos hx]
      simp only [Finset.mem_insert, List.exists_mem_cons_iff]
      constructor
      · rintro ((heq | h) | ⟨hne, hq⟩)
        · exact Or.inr ⟨heq ▸ hx, Or.inl heq.symm⟩
        · exact Or.inl h
        · exact Or.inr ⟨hne, Or.inr hq⟩
      · rintro (h | ⟨hne, heq | hq⟩)
        · exact Or.inl (Or.inr h)
        · exact Or.inl (Or.inl heq.symm)
        · exact Or.inr ⟨hne, hq⟩

theorem mem_foldl_fetchStep (results : List FetchResult) :
    ∀ (acc : Finset (List Char)) (d : List Char),
      d ∈ results.foldl fetchStep acc ↔
        d ∈ acc ∨ (d ≠ [] ∧ ∃ lines, FetchResult.success lines ∈ results ∧
          ∃ line ∈ lines, cleanup_domain line = d) := by
  induction results with
  | nil => intro acc d; simp
  | cons r rs ih =>
    intro acc d
    rw [List.foldl_cons, ih]
    cases r with
    | failure =>
      simp only [fetchStep, List.mem_cons]
      constructor
      · rintro (h | ⟨hne, lines, hmem, hq⟩)
        · exact Or.inl h
        · exact Or.inr ⟨hne, lines, Or.inr hmem, hq⟩
      · rintro (h | ⟨hne, lines, heq | hmem, hq⟩)
        · exact Or.inl h
        · exact FetchResult.noConfusion heq
        · exact Or.inr ⟨hne, lines, hmem, hq⟩
    | success ls =>
      simp only [fetchStep, mem_addLines, List.mem_cons]
      constructor
      · rintro ((h | ⟨hne, line, hline, hq⟩) | ⟨hne, lines, hmem, hq⟩)
        · exact Or.inl h
        · exact Or.inr ⟨hne, ls, Or.inl rfl, line, hline, hq⟩
        · exact Or.inr ⟨hne, lines, Or.inr hmem, hq⟩
      · rintro (h | ⟨hne, lines, heq | hmem, hq⟩)
        · exact Or.inl (Or.inl h)
        · cases heq
          exact Or.inl (Or.inr ⟨hne, hq⟩)
        · exact Or.inr ⟨hne, lines, hmem, hq⟩

theorem mem_temp_blocklist (results : List FetchResult) (d : List Char) :
    d ∈ temp_blocklist results ↔
      d ≠ [] ∧ ∃ lines, FetchResult.success lines ∈ results ∧
        ∃ line ∈ lines, cleanup_domain line = d := by
  rw [temp_blocklist, mem_foldl_fetchStep]
  simp

theorem mem_fetch_and_load (prev : Finset (List Char)) (results : List FetchResult)
    (d : List Char) :
    d ∈ fetch_and_load_remote_blocklists prev results ↔ d ∈ temp_blocklist results := by
  unfold fetch_and_load_remote_blocklists
  simp [Finset.filter_False]

theorem foldl_fetchStep_skip (pre post : List FetchResult) (acc : Finset (List Char)) :
    (pre ++ FetchResult.failure :: post).foldl fetchStep acc =
      (pre ++ post).foldl fetchStep acc := by
  rw [List.foldl_append, List.foldl_append, List.foldl_cons]
  rfl

/-! Concrete inputs used by witnesses and counterexamples. -/

/-- The characters of `"com"`. -/
def comW : List Char := ['c', 'o', 'm']

/-- The characters of `"example.com"`. -/
def exampleComW : List Char := ['e', 'x', 'a', 'm', 'p', 'l', 'e', '.', 'c', 'o', 'm']

/-- The characters of `"b.example.com"`. -/
def bExampleComW : List Char := ['b', '.'] ++ exampleComW

/-- The characters of `"a.b.example.com"`. -/
def aBExampleComW : List Char := ['a', '.', 'b', '.'] ++ exampleComW

/-- The characters of `"ads.example.com"`. -/
def adsExampleComW : List Char := ['a', 'd', 's', '.'] ++ exampleComW

/-- The characters of `"ads.example.com."` (wire-format trailing dot). -/
def adsExampleComDotW : List Char := adsExampleComW ++ ['.']

/-- The characters of `"www.www.example.com"`. -/
def wwwWwwExampleComW : List Char := ['w', 'w', 'w', '.', 'w', 'w', 'w', '.'] ++ exampleComW

/-- The characters of `"HTTPS://Example.COM/path"`. -/
def schemeExampleW : List Char :=
  ['H', 'T', 'T', 'P', 'S', ':', '/', '/', 'E', 'x', 'a', 'm', 'p', 'l', 'e', '.',
   'C', 'O', 'M', '/', 'p', 'a', 't', 'h']

/-- The characters of the hosts-file line `"0.0.0.0 example.com"`. -/
def hostsLineW : List Char := ['0', '.', '0', '.', '0', '.', '0', ' '] ++ exampleComW

/-- The characters of the comment line `"  # comment"`. -/
def commentLineW : List Char := [' ', ' ', '#', ' ', 'c', 'o', 'm', 'm', 'e', 'n', 't']

/-- The characters of `"safe.com"`. -/
def safeComW : List Char := ['s', 'a', 'f', 'e', '.', 'c', 'o', 'm']

/-- The characters of `"stale.net"`. -/
def staleW : List Char := ['s', 't', 'a', 'l', 'e', '.', 'n', 'e', 't']

/-! The claims. -/

/-- C1 (amended): for every domain `d` in the blocklist and every query
string `s` whose cleaned name ends with `"." ++ d`, the classifier returns
ALLOW when the cleaned name is an exact member of the allowlist (allowlist
precedence), and BLOCK otherwise.  Compared with the original claim, the
suffix condition is read on the normalized name, and only exact allowlist
membership of the normalized name (not an allowlisted suffix) yields
ALLOW. -/
theorem claim1_suffix_block_allowlist_precedence
    (blocked allowed : List (List Char)) (d s u : List Char)
    (hd : d ∈ blocked)
    (hsuf : cleanup_domain s = u ++ '.' :: d) :
    (cleanup_domain s ∈ allowed → is_domain_blocked blocked allowed s = false) ∧
    (cleanup_domain s ∉ allowed → is_domain_blocked blocked allowed s = true) := by
  constructor
  · intro hmem
    simp only [is_domain_blocked]
    rw [if_pos hmem]
  · intro hmem
    simp only [is_domain_blocked]
    rw [if_neg hmem]
    by_cases hexact : cleanup_domain s ∈ blocked
    · rw [if_pos hexact]
    · rw [if_neg hexact]
      obtain ⟨i, _, hilen, hjoin⟩ := suffix_mem_splits u (cleanup_domain s) d hsuf
      rw [List.any_eq_true]
      exact ⟨i, List.mem_range.mpr hilen, by rw [hjoin]; exact decide_eq_true hd⟩

/-- C1 counterexample: with BlockSet `{example.com}` and AllowSet
`{b.example.com}`, the query `a.b.example.com` ends with `".example.com"`
and has the intermediate right-aligned suffix `b.example.com` in the
allowlist, so the claim as stated requires ALLOW; the code returns BLOCK
because the allowlist is consulted only for the exact query name. -/
theorem claim1_counterexample :
    is_domain_blocked [exampleComW] [bExampleComW] aBExampleComW = true := by decide

/-- C1 witness: `example.com` blocked, empty allowlist, query
`ads.example.com` is blocked. -/
theorem claim1_witness :
    is_domain_blocked [exampleComW] [] adsExampleComW = true :=
  (claim1_suffix_block_allowlist_precedence [exampleComW] [] exampleComW adsExampleComW
    ['a', 'd', 's'] (by decide) (by decide)).2 (by decide)

/-- C2: the subdomain loop of `is_domain_blocked` iterates `i` over
`range(len(parts))`, so it also tests the single-label suffix, contradicting
both the claim and the code's own comment; with BlockSet `{com}` the claim
requires `example.com` to be ALLOWed (no single-label suffix may decide),
but the code BLOCKs it. -/
theorem claim2_single_label_suffix_decides :
    is_domain_blocked [comW] [] exampleComW = true := by decide

/-- C3 (amended): `cleanup_domain` is idempotent on every non-empty output
that does not begin with `www.`; an output beginning with `www.` has that
prefix stripped again on the second pass, which is the only failure of
idempotence. -/
theorem claim3_idempotent_unless_www (x : List Char)
    (hne : cleanup_domain x ≠ [])
    (hww : wwwPref.isPrefixOf (cleanup_domain x) = false) :
    cleanup_domain (cleanup_domain x) = cleanup_domain x := by
  have hc := cleanup_canonical x
  simp only [isCanonicalDomain, Bool.and_eq_true, List.all_eq_true] at hc
  exact cleanup_fix _ hc.1.1 hc.1.2 hc.2 hne hww

/-- C3 counterexample: `www.www.example.com` normalizes to the non-empty
domain `www.example.com`, but a second normalization strips the `www.`
prefix again, so `normalize` is not idempotent on this non-empty output. -/
theorem claim3_counterexample :
    cleanup_domain wwwWwwExampleComW ≠ [] ∧
      cleanup_domain (cleanup_domain wwwWwwExampleComW) ≠
        cleanup_domain wwwWwwExampleComW := by decide

/-- C3 witness: `HTTPS://Example.COM/path` normalizes to `example.com`,
which is a fixed point of normalization. -/
theorem claim3_witness :
    cleanup_domain (cleanup_domain schemeExampleW) = cleanup_domain schemeExampleW :=
  claim3_idempotent_unless_www schemeExampleW (by decide) (by decide)

/-- C5: after a refresh, the new BlockSet holds exactly the non-empty cleanup
results of the lines of the successfully fetched sources, for any previous
BlockSet (nothing of the previous set survives unless reproduced), and a
failing source is skipped without affecting the result: deleting it from the
source list leaves the refresh result unchanged. -/
theorem claim5_refresh_skips_failures
    (prev : Finset (List Char)) (results : List FetchResult) (d : List Char) :
    (d ∈ fetch_and_load_remote_blocklists prev results ↔
      d ≠ [] ∧ ∃ lines, FetchResult.success lines ∈ results ∧
        ∃ line ∈ lines, cleanup_domain line = d) ∧
    (∀ pre post, results = pre ++ FetchResult.failure :: post →
      fetch_and_load_remote_blocklists prev results =
        fetch_and_load_remote_blocklists prev (pre ++ post)) := by
  constructor
  · rw [mem_fetch_and_load, mem_temp_blocklist]
  · intro pre post hres
    subst hres
    unfold fetch_and_load_remote_blocklists temp_blocklist
    rw [foldl_fetchStep_skip]

/-- C5 witness: one successful source carrying the hosts line
`0.0.0.0 example.com` plus one failed source yield a BlockSet containing
`example.com`, equal to the refresh without the failed source, starting
from a stale previous set. -/
theorem claim5_witness :
    exampleComW ∈ fetch_and_load_remote_blocklists {staleW}
        [FetchResult.success [hostsLineW], FetchResult.failure] ∧
      fetch_and_load_remote_blocklists {staleW}
          [FetchResult.success [hostsLineW], FetchResult.failure] =
        fetch_and_load_remote_blocklists {staleW} [FetchResult.success [hostsLineW]] :=
  ⟨(claim5_refresh_skips_failures {staleW} _ exampleComW).1.mpr
      ⟨by decide, [hostsLineW], by simp, hostsLineW, by simp, by decide⟩,
    (claim5_refresh_skips_failures {staleW} _ exampleComW).2
      [FetchResult.success [hostsLineW]] [] rfl⟩

/-- C6: for a decodable query whose name classifies ALLOW, an upstream
timeout or upstream I/O error makes the relay send a synthesized reply with
response code SERVFAIL (2) reusing the request's transaction id and question
section, and the per-query outbound socket is closed whether the forward
succeeds or fails. -/
theorem claim6_upstream_failure_servfail
    (blocked allowed : List (List Char)) (req : DNSRequest) (up : UpstreamBehavior)
    (hallow : is_domain_blocked blocked allowed (stripDots req.q.qname) = false) :
    (serverStep blocked allowed (some req) up).upstreamSocket = some true ∧
    (up = UpstreamBehavior.timeout ∨ up = UpstreamBehavior.ioError →
      (serverStep blocked allowed (some req) up).outcome =
        Outcome.sendReply ⟨req.reqId, 2, req.q, []⟩) := by
  simp only [serverStep, hallow, Bool.false_eq_true, if_false]
  cases up with
  | replies bytes =>
    exact ⟨rfl, by rintro (h | h) <;> exact UpstreamBehavior.noConfusion h⟩
  | timeout => exact ⟨rfl, fun _ => rfl⟩
  | ioError => exact ⟨rfl, fun _ => rfl⟩

/-- C6 witness: `safe.com` is not blocked; on upstream timeout the client
receives SERVFAIL with the original id and question, and the outbound socket
is closed. -/
theorem claim6_witness :
    (serverStep [exampleComW] [] (some ⟨3, ⟨safeComW, 1⟩⟩)
        UpstreamBehavior.timeout).upstreamSocket = some true ∧
      (serverStep [exampleComW] [] (some ⟨3, ⟨safeComW, 1⟩⟩)
          UpstreamBehavior.timeout).outcome =
        Outcome.sendReply ⟨3, 2, ⟨safeComW, 1⟩, []⟩ :=
  ⟨(claim6_upstream_failure_servfail [exampleComW] [] ⟨3, ⟨safeComW, 1⟩⟩
      UpstreamBehavior.timeout (by decide)).1,
    (claim6_upstream_failure_servfail [exampleComW] [] ⟨3, ⟨safeComW, 1⟩⟩
      UpstreamBehavior.timeout (by decide)).2 (Or.inl rfl)⟩

/-- C7: a raw line that is empty, consists only of whitespace, or whose
trimmed form begins with the comment marker `#` is rejected by
`cleanup_domain`, which returns the empty result. -/
theorem claim7_blank_or_comment_rejected (s : List Char)
    (h : s = [] ∨ (∀ c ∈ s, isSpace c = true) ∨ (pyStrip s).head? = some '#') :
    cleanup_domain s = [] := by
  have hguard :
      (pyLower (pyStrip s) == [] || (pyLower (pyStrip s)).head? == some '#') = true := by
    rcases h with h | h | h
    · subst h
      decide
    · have hstrip : pyStrip s = [] := by
        unfold pyStrip pyStripBy
        rw [dropWhile_eq_nil_of_all isSpace s h]
        rfl
      rw [hstrip]
      decide
    · obtain ⟨t, ht⟩ : ∃ t, pyStrip s = '#' :: t := by
        cases hs : pyStrip s with
        | nil => rw [hs] at h; exact Option.noConfusion h
        | cons a t =>
          rw [hs] at h
          simp only [List.head?_cons, Option.some.injEq] at h
          exact ⟨t, by rw [h]⟩
      rw [ht]
      simp [pyLower]
  unfold cleanup_domain
  rw [if_pos hguard]

/-- C7 witness: the line `"  # comment"` is rejected. -/
theorem claim7_witness : cleanup_domain commentLineW = [] :=
  claim7_blank_or_comment_rejected commentLineW (Or.inr (Or.inr (by decide)))

/-- C8: every output of `cleanup_domain` is in the canonical Domain form
(only characters in `[a-z0-9.-]`, no leading or trailing `.` or `-`), and
every member added to the blocklist by a refresh or to the allowlist by the
file loader is a non-empty such output. -/
theorem claim8_canonical_form :
    (∀ s : List Char, isCanonicalDomain (cleanup_domain s) = true) ∧
    (∀ (prev : Finset (List Char)) (results : List FetchResult) (d : List Char),
        d ∈ fetch_and_load_remote_blocklists prev results →
          d ≠ [] ∧ isCanonicalDomain d = true) ∧
    (∀ (lines : List (List Char)) (d : List Char),
        d ∈ load_domains_from_file lines → d ≠ [] ∧ isCanonicalDomain d = true) := by
  refine ⟨cleanup_canonical, ?_, ?_⟩
  · intro prev results d hd
    rw [mem_fetch_and_load, mem_temp_blocklist] at hd
    obtain ⟨hne, _, _, line, _, hq⟩ := hd
    exact ⟨hne, hq ▸ cleanup_canonical line⟩
  · intro lines d hd
    rw [load_domains_from_file, mem_addLines] at hd
    rcases hd with h | ⟨hne, line, _, hq⟩
    · exact absurd h (Finset.not_mem_empty d)
    · exact ⟨hne, hq ▸ cleanup_canonical line⟩

/-- C8 witness: the allowlist loaded from the hosts line
`0.0.0.0 example.com` contains the canonical member `example.com`. -/
theorem claim8_witness : exampleComW ≠ [] ∧ isCanonicalDomain exampleComW = true :=
  claim8_canonical_form.2.2 [hostsLineW] exampleComW (by decide)

/-- C9: an inbound datagram that fails DNS decoding produces no reply at all,
and the server loop goes on to process the remaining events unchanged. -/
theorem claim9_malformed_dropped (blocked allowed : List (List Char))
    (up : UpstreamBehavior) (rest : List (Option DNSRequest × UpstreamBehavior)) :
    serverLoop blocked allowed ((none, up) :: rest) =
      ⟨Outcome.noReply, none⟩ :: serverLoop blocked allowed rest := rfl

/-- C10: a query whose name classifies BLOCK is answered, whatever its query
type and whatever the upstream would do, by a reply reusing the request's
transaction id and question section and carrying exactly one answer record
of type A (code 1) with rdata `0.0.0.0`. -/
theorem claim10_sinkhole_reply
    (blocked allowed : List (List Char)) (req : DNSRequest) (up : UpstreamBehavior)
    (hb : is_domain_blocked blocked allowed (stripDots req.q.qname) = true) :
    serverStep blocked allowed (some req) up =
      ⟨Outcome.sendReply ⟨req.reqId, 0, req.q,
        [⟨stripDots req.q.qname, qtypeA, zeroAddr⟩]⟩, none⟩ := by
  simp only [serverStep, hb, if_true]
  rfl

/-- C10 witness: a TXT query (type 16) for `ads.example.com.` with
`example.com` blocked gets the single A-record sinkhole answer with the
original id and question. -/
theorem claim10_witness :
    serverStep [exampleComW] [] (some ⟨7, ⟨adsExampleComDotW, 16⟩⟩)
        UpstreamBehavior.timeout =
      ⟨Outcome.sendReply ⟨7, 0, ⟨adsExampleComDotW, 16⟩,
        [⟨adsExampleComW, qtypeA, zeroAddr⟩]⟩, none⟩ := by
  have h := claim10_sinkhole_reply [exampleComW] [] ⟨7, ⟨adsExampleComDotW, 16⟩⟩
    UpstreamBehavior.timeout (by decide)
  rw [h]
  decide

end Advault

